import Mathlib

/-!
Shallow embedding of the filtering/sorting engine of `src/lib/utils/index.ts`
(process-list view of a system monitor).  JavaScript numbers are modelled as
rationals (`ℚ`), arrays as lists, `Set<string>` / string arrays as
`List String`, and the regular-expression engine as an abstract compile
oracle mapping a pattern either to a matcher function or to a compilation
failure (`Option`), since `new RegExp(term, "i")` may throw and the source
catches that throw and treats it as no-match.
-/

namespace NeoHtop

/-- One snapshot-instant view of an OS process (`Process` in `$lib/types`,
as consumed by `filterProcesses` / `sortProcesses`). -/
structure Process where
  pid : Nat
  name : String
  command : String
  status : String
  cpu_usage : ℚ
  memory_usage : ℚ
  run_time : ℚ
  disk_usage : ℚ × ℚ
  deriving DecidableEq

/-- A numeric filter clause `{operator, value, enabled}`. -/
structure NumClause where
  operator : String
  value : ℚ
  enabled : Bool
  deriving DecidableEq

/-- The status filter clause `{values, enabled}`. -/
structure StatusClause where
  values : List String
  enabled : Bool
  deriving DecidableEq

/-- The `filters` argument of `filterProcesses`. -/
structure Filters where
  cpu : NumClause
  ram : NumClause
  runtime : NumClause
  status : StatusClause
  deriving DecidableEq

/-- `Object.values(filters).some((f) => f.enabled)` of the source. -/
def someEnabled (filters : Filters) : Bool :=
  filters.cpu.enabled || filters.ram.enabled || filters.runtime.enabled ||
    filters.status.enabled

/-- `compareValue` of the source: switch on the operator string, defaulting
to `true` for any unrecognized operator. -/
def compareValue (value : ℚ) (operator : String) (target : ℚ) : Bool :=
  if operator = ">" then value > target
  else if operator = "<" then value < target
  else if operator = "=" then value = target
  else if operator = ">=" then value ≥ target
  else if operator = "<=" then value ≤ target
  else true

/-- JavaScript `a.includes(b)`: `b` occurs as a contiguous substring of `a`. -/
def jsIncludes (a b : String) : Bool :=
  decide (b.data <:+: a.data)

/-- Splitting a character list at every comma (the body of
`searchTerm.split(",")`), accumulating the current segment reversed. -/
def splitCommaAux : List Char → List Char → List (List Char)
  | [], acc => [acc.reverse]
  | c :: rest, acc =>
    if c = ',' then acc.reverse :: splitCommaAux rest []
    else splitCommaAux rest (c :: acc)

/-- JavaScript `s.split(",")`: the list of maximal comma-free segments,
including empty ones. -/
def jsSplitComma (s : String) : List String :=
  (splitCommaAux s.data []).map String.mk

/-- JavaScript `s.trim()`: strip whitespace from both ends. -/
def jsTrim (s : String) : String :=
  String.mk
    (((s.data.dropWhile Char.isWhitespace).reverse.dropWhile
      Char.isWhitespace).reverse)

/-- JavaScript `s.toLowerCase()`, modelled per character. -/
def jsToLower (s : String) : String := String.mk (s.data.map Char.toLower)

/-- The regex compile oracle: `some f` models a successfully compiled
case-insensitive pattern whose `test` is `f`; `none` models a constructor
throw (malformed pattern). -/
abbrev RegexOracle := String → Option (String → Bool)

/-- The body of `terms.some((term) => ...)` in `filterProcesses`: the
lowercased term is a substring of the lowercased name or command, or the raw
term is a substring of the decimal pid string, or the compiled regex matches
the name; a failed compilation is caught and yields `false`. -/
def termHit (rx : RegexOracle) (p : Process) (term : String) : Bool :=
  let termLower := jsToLower term
  if jsIncludes (jsToLower p.name) termLower ||
      jsIncludes (jsToLower p.command) termLower ||
      jsIncludes (toString p.pid) term then
    true
  else
    match rx term with
    | some f => f p.name
    | none => false

/-- `searchTerm.split(",").map((term) => term.trim())`, guarded by
`searchTerm.length > 0` as in the source. -/
def parseTerms (searchTerm : String) : List String :=
  if searchTerm.length > 0 then (jsSplitComma searchTerm).map jsTrim
  else []

/-- The per-record predicate inside `processes.filter((process) => ...)`:
status clause, cpu clause, ram clause (bytes → MiB), runtime clause
(seconds → minutes), then OR-across-terms search. -/
def passesRecord (rx : RegexOracle) (filters : Filters) (terms : List String)
    (p : Process) : Bool :=
  if filters.status.enabled && filters.status.values.length > 0 &&
      !(filters.status.values.contains p.status) then false
  else if filters.cpu.enabled &&
      !(compareValue p.cpu_usage filters.cpu.operator filters.cpu.value) then
    false
  else if filters.ram.enabled &&
      !(compareValue (p.memory_usage / (1024 * 1024)) filters.ram.operator
        filters.ram.value) then false
  else if filters.runtime.enabled &&
      !(compareValue (p.run_time / 60) filters.runtime.operator
        filters.runtime.value) then false
  else if terms.length = 0 then true
  else terms.any (fun term => termHit rx p term)

/-- `filterProcesses` of the source: early return when the search string is
empty and no clause is enabled, otherwise filter each record through
`passesRecord`. -/
def filterProcesses (rx : RegexOracle) (processes : List Process)
    (searchTerm : String) (filters : Filters) : List Process :=
  if searchTerm.length = 0 && !(someEnabled filters) then processes
  else processes.filter (passesRecord rx filters (parseTerms searchTerm))

/-- Sort direction of `SortConfig`. -/
inductive SortDirection where
  | asc
  | desc
  deriving DecidableEq

/-- The sortable `Process` attributes (`SortConfig.field`). -/
inductive SortField where
  | pid
  | name
  | command
  | status
  | cpu_usage
  | memory_usage
  | run_time
  | disk_usage
  deriving DecidableEq

/-- `SortConfig` of `$lib/types`: a sortable field plus a direction. -/
structure SortConfig where
  field : SortField
  direction : SortDirection
  deriving DecidableEq

/-- Model of `String.prototype.localeCompare` restricted to its sign
contract (negative / zero / positive).  The source only consumes the sign,
so the locale-specific collation is modelled by plain lexicographic order
on the strings. -/
def localeCompare (a b : String) : ℚ :=
  if a < b then -1 else if a = b then 0 else 1

/-- The comparator closure passed to `[...processes].sort((a, b) => ...)`:
pin lookup first (absolute override), then the direction-adjusted field
comparison, with the dominant-operation heuristic for `disk_usage` and
`localeCompare` for string fields.  The value returned is the JavaScript
comparator number whose sign decides the order. -/
def jsCompare (sortConfig : SortConfig) (pinnedProcesses : List String)
    (a b : Process) : ℚ :=
  let aPin := pinnedProcesses.contains a.command
  let bPin := pinnedProcesses.contains b.command
  if aPin ≠ bPin then (if aPin then -1 else 1)
  else
    let direction : ℚ := if sortConfig.direction = SortDirection.asc then 1 else -1
    match sortConfig.field with
    | SortField.disk_usage =>
      let aRead := a.disk_usage.1
      let aWrite := a.disk_usage.2
      let bRead := b.disk_usage.1
      let bWrite := b.disk_usage.2
      let totalReads := aRead + bRead
      let totalWrites := aWrite + bWrite
      if totalWrites > totalReads * (3 / 2) then
        if aWrite ≠ bWrite then direction * (aWrite - bWrite)
        else direction * (aRead - bRead)
      else if totalReads > totalWrites * (3 / 2) then
        if aRead ≠ bRead then direction * (aRead - bRead)
        else direction * (aWrite - bWrite)
      else
        let aTotalDisk := aRead + aWrite
        let bTotalDisk := bRead + bWrite
        if aTotalDisk ≠ bTotalDisk then direction * (aTotalDisk - bTotalDisk)
        else direction * (max aRead aWrite - max bRead bWrite)
    | SortField.pid => direction * ((a.pid : ℚ) - (b.pid : ℚ))
    | SortField.name => direction * localeCompare a.name b.name
    | SortField.command => direction * localeCompare a.command b.command
    | SortField.status => direction * localeCompare a.status b.status
    | SortField.cpu_usage => direction * (a.cpu_usage - b.cpu_usage)
    | SortField.memory_usage => direction * (a.memory_usage - b.memory_usage)
    | SortField.run_time => direction * (a.run_time - b.run_time)

/-- `a` sorts at or before `b` under the comparator: comparator value ≤ 0.
This is the relation a stable comparison sort realizes. -/
def sortsLE (sortConfig : SortConfig) (pinnedProcesses : List String)
    (a b : Process) : Prop :=
  jsCompare sortConfig pinnedProcesses a b ≤ 0

instance (sortConfig : SortConfig) (pinnedProcesses : List String) :
    DecidableRel (sortsLE sortConfig pinnedProcesses) := fun a b =>
  inferInstanceAs (Decidable (jsCompare sortConfig pinnedProcesses a b ≤ 0))

/-- `sortProcesses` of the source: `[...processes].sort(comparator)` —
copy the array, then sort the copy with the comparator.  The engine-level
in-place sort on the copy is modelled as a stable comparison sort
(insertion sort) over `sortsLE`. -/
def sortProcesses (processes : List Process) (sortConfig : SortConfig)
    (pinnedProcesses : List String) : List Process :=
  List.insertionSort (sortsLE sortConfig pinnedProcesses) processes

/-- Modelled from the spec (§4.2 dominant-operation heuristic, for the
refinement claim about the disk comparator): the per-pair classification
and ordering rule, written from the spec's words, as a function of the two
records and the direction sign only. -/
def specDiskHeuristic (direction : ℚ) (a b : Process) : ℚ :=
  let aRead := a.disk_usage.1
  let aWrite := a.disk_usage.2
  let bRead := b.disk_usage.1
  let bWrite := b.disk_usage.2
  let totalReads := aRead + bRead
  let totalWrites := aWrite + bWrite
  if totalWrites > totalReads * (3 / 2) then
    if aWrite ≠ bWrite then direction * (aWrite - bWrite)
    else direction * (aRead - bRead)
  else if totalReads > totalWrites * (3 / 2) then
    if aRead ≠ bRead then direction * (aRead - bRead)
    else direction * (aWrite - bWrite)
  else
    if aRead + aWrite ≠ bRead + bWrite then
      direction * ((aRead + aWrite) - (bRead + bWrite))
    else direction * (max aRead aWrite - max bRead bWrite)

/-- The record passes every enabled status / cpu / ram / runtime clause
(the non-search part of the per-record predicate). -/
def ClausesPass (filters : Filters) (p : Process) : Prop :=
  (filters.status.enabled = true → filters.status.values.length > 0 →
    filters.status.values.contains p.status = true) ∧
  (filters.cpu.enabled = true →
    compareValue p.cpu_usage filters.cpu.operator filters.cpu.value = true) ∧
  (filters.ram.enabled = true →
    compareValue (p.memory_usage / (1024 * 1024)) filters.ram.operator
      filters.ram.value = true) ∧
  (filters.runtime.enabled = true →
    compareValue (p.run_time / 60) filters.runtime.operator
      filters.runtime.value = true)

instance (filters : Filters) (p : Process) : Decidable (ClausesPass filters p) :=
  inferInstanceAs (Decidable (_ ∧ _ ∧ _ ∧ _))

/-- Ordered-pair relation on an output list: whenever the later record is
pinned, the earlier one is pinned too.  `Pairwise` of this relation says the
pinned records form a prefix, i.e. every pinned record precedes every
unpinned one. -/
def pinnedFirst (pinnedProcesses : List String) (a b : Process) : Prop :=
  pinnedProcesses.contains b.command = true →
    pinnedProcesses.contains a.command = true

/-- A regex oracle on which every pattern fails to compile (models
`new RegExp` throwing on every term). -/
def rxFail : RegexOracle := fun _ => none

/-- Sample disabled numeric clause. -/
def clauseOff : NumClause := { operator := ">", value := 50, enabled := false }

/-- Sample enabled cpu clause `cpu > 50`. -/
def clauseCpuOn : NumClause := { operator := ">", value := 50, enabled := true }

/-- Sample disabled status clause. -/
def statusOff : StatusClause := { values := [], enabled := false }

/-- Sample configuration with every clause disabled. -/
def filtersAllOff : Filters :=
  { cpu := clauseOff, ram := clauseOff, runtime := clauseOff, status := statusOff }

/-- Sample configuration with only the cpu clause enabled. -/
def filtersCpuOn : Filters := { filtersAllOff with cpu := clauseCpuOn }

/-- Sample configuration whose status clause is enabled yet has an empty
values set. -/
def filtersStatusGhost : Filters :=
  { filtersAllOff with status := { values := [], enabled := true } }

/-- Sample process record. -/
def procChrome : Process :=
  { pid := 1, name := "chrome", command := "/usr/bin/chrome",
    status := "Running", cpu_usage := 70, memory_usage := 0, run_time := 0,
    disk_usage := (0, 0) }

/-- Record A of the disk-comparator cycle: disk pair (read 0, write 3). -/
def diskProcA : Process :=
  { pid := 1, name := "a", command := "a", status := "Running",
    cpu_usage := 0, memory_usage := 0, run_time := 0, disk_usage := (0, 3) }

/-- Record B of the disk-comparator cycle: disk pair (read 1, write 3). -/
def diskProcB : Process :=
  { pid := 2, name := "b", command := "b", status := "Running",
    cpu_usage := 0, memory_usage := 0, run_time := 0, disk_usage := (1, 3) }

/-- Record C of the disk-comparator cycle: disk pair (read 3, write 2). -/
def diskProcC : Process :=
  { pid := 3, name := "c", command := "c", status := "Running",
    cpu_usage := 0, memory_usage := 0, run_time := 0, disk_usage := (3, 2) }

/-- C5: with an empty search string and no enabled clause, `filterProcesses`
returns its input list itself, unchanged. -/
theorem filterProcesses_noop_identity (rx : RegexOracle) (ps : List Process)
    (filters : Filters) (h : someEnabled filters = false) :
    filterProcesses rx ps "" filters = ps := by
  simp [filterProcesses, h]

/-- Witness for C5 at a concrete list and an all-disabled configuration. -/
theorem filterProcesses_noop_identity_witness :
    filterProcesses rxFail [procChrome] "" filtersAllOff = [procChrome] :=
  filterProcesses_noop_identity rxFail [procChrome] filtersAllOff rfl

/-- C6: for every input list, search string and configuration, the output of
`filterProcesses` is an order-preserving subsequence of the input — no
element is invented, duplicated or reordered. -/
theorem filterProcesses_sublist (rx : RegexOracle) (ps : List Process)
    (searchTerm : String) (filters : Filters) :
    (filterProcesses rx ps searchTerm filters).Sublist ps := by
  unfold filterProcesses
  split
  · exact List.Sublist.refl ps
  · exact List.filter_sublist ps

/-- C8: `compareValue` realizes the five comparison operators and returns
`true` on every unrecognized operator string (unknown operator never rejects
a record, and the total function never raises). -/
theorem compareValue_operator_semantics (v t : ℚ) (op : String) :
    compareValue v ">" t = decide (v > t) ∧
    compareValue v "<" t = decide (v < t) ∧
    compareValue v "=" t = decide (v = t) ∧
    compareValue v ">=" t = decide (v ≥ t) ∧
    compareValue v "<=" t = decide (v ≤ t) ∧
    (op ∉ ([">", "<", "=", ">=", "<="] : List String) →
      compareValue v op t = true) := by
  refine ⟨rfl, rfl, rfl, rfl, rfl, fun h => ?_⟩
  simp only [List.mem_cons, List.not_mem_nil, or_false, not_or] at h
  obtain ⟨h1, h2, h3, h4, h5⟩ := h
  simp [compareValue, h1, h2, h3, h4, h5]

/-- Witness for C8 at a concrete unrecognized operator. -/
theorem compareValue_operator_semantics_witness :
    compareValue 1 "max" 2 = true :=
  (compareValue_operator_semantics 1 2 "max").2.2.2.2.2 (by decide)

/-- C9: `sortProcesses` returns a new sequence that is a permutation of its
input; in this pure model the caller's list is untouched (the source copies
via `[...processes]` before the in-place sort, so the original array holds
the same elements in the same order after the call). -/
theorem sortProcesses_perm (ps : List Process) (sortConfig : SortConfig)
    (pinnedProcesses : List String) :
    (sortProcesses ps sortConfig pinnedProcesses).Perm ps :=
  List.perm_insertionSort _ ps

/-- C7: the disk-usage comparator is not transitive: with no pins and
ascending direction it orders A before B, B before C, and also C before A,
because the dominant-operation classification is recomputed from the sums
of each compared pair (A: read 0 / write 3, B: read 1 / write 3,
C: read 3 / write 2). -/
theorem diskCompare_cycle :
    jsCompare ⟨SortField.disk_usage, SortDirection.asc⟩ [] diskProcA diskProcB < 0 ∧
    jsCompare ⟨SortField.disk_usage, SortDirection.asc⟩ [] diskProcB diskProcC < 0 ∧
    jsCompare ⟨SortField.disk_usage, SortDirection.asc⟩ [] diskProcC diskProcA < 0 := by
  refine ⟨?_, ?_, ?_⟩ <;>
    norm_num [jsCompare, diskProcA, diskProcB, diskProcC]

/-- Characterization of the per-record predicate: it holds exactly when the
record passes every enabled clause and, if there are search terms, at least
one term hits. -/
theorem passesRecord_iff (rx : RegexOracle) (filters : Filters)
    (terms : List String) (p : Process) :
    passesRecord rx filters terms p = true ↔
      ClausesPass filters p ∧
        (terms.length = 0 ∨ terms.any (termHit rx p) = true) := by
  unfold passesRecord ClausesPass
  split_ifs with h1 h2 h3 h4 h5 <;>
    simp_all [Bool.and_eq_true, Bool.not_eq_true', not_and, not_or]

/-- C1: on the `disk_usage` field, whenever the pin lookup does not decide
the pair, the comparator's value coincides with the spec's
dominant-operation heuristic — a function of the direction sign and the two
compared records only, recomputed fresh for each pair. -/
theorem diskCompare_matches_spec_heuristic (sortConfig : SortConfig)
    (pinnedProcesses : List String) (a b : Process)
    (hf : sortConfig.field = SortField.disk_usage)
    (hpin : pinnedProcesses.contains a.command =
      pinnedProcesses.contains b.command) :
    jsCompare sortConfig pinnedProcesses a b =
      specDiskHeuristic
        (if sortConfig.direction = SortDirection.asc then 1 else -1) a b := by
  obtain ⟨field, dir⟩ := sortConfig
  cases hf
  simp only [jsCompare, specDiskHeuristic, hpin, ne_eq, not_true_eq_false,
    if_false, ite_not]

/-- A pinned record compares strictly before an unpinned one: the comparator
short-circuits to -1. -/
theorem jsCompare_pinned_left (sortConfig : SortConfig)
    (pinnedProcesses : List String) (a b : Process)
    (ha : pinnedProcesses.contains a.command = true)
    (hb : pinnedProcesses.contains b.command = false) :
    jsCompare sortConfig pinnedProcesses a b = -1 := by
  have ha' : a.command ∈ pinnedProcesses := by simpa using ha
  have hb' : b.command ∉ pinnedProcesses := by simpa using hb
  simp [jsCompare, ha', hb']

/-- An unpinned record compares strictly after a pinned one: the comparator
short-circuits to 1. -/
theorem jsCompare_pinned_right (sortConfig : SortConfig)
    (pinnedProcesses : List String) (a b : Process)
    (ha : pinnedProcesses.contains a.command = false)
    (hb : pinnedProcesses.contains b.command = true) :
    jsCompare sortConfig pinnedProcesses a b = 1 := by
  have ha' : a.command ∉ pinnedProcesses := by simpa using ha
  have hb' : b.command ∈ pinnedProcesses := by simpa using hb
  simp [jsCompare, ha', hb']

/-- Inserting one record into a list in which every pinned record precedes
every unpinned one preserves that invariant. -/
theorem orderedInsert_pinnedFirst (sortConfig : SortConfig)
    (pinnedProcesses : List String) (x : Process) (l : List Process)
    (hl : l.Pairwise (pinnedFirst pinnedProcesses)) :
    (l.orderedInsert (sortsLE sortConfig pinnedProcesses) x).Pairwise
      (pinnedFirst pinnedProcesses) := by
  induction l with
  | nil => simp [pinnedFirst]
  | cons y ys ih =>
    obtain ⟨hy, hys⟩ := List.pairwise_cons.mp hl
    rw [List.orderedInsert]
    split_ifs with hle
    · refine List.pairwise_cons.mpr ⟨?_, hl⟩
      intro z hz hzpin
      by_contra hx
      have hx' : pinnedProcesses.contains x.command = false :=
        Bool.eq_false_iff.mpr hx
      have hypin : pinnedProcesses.contains y.command = true := by
        rcases List.mem_cons.mp hz with hzy | hzys
        · exact hzy ▸ hzpin
        · exact hy z hzys hzpin
      have : jsCompare sortConfig pinnedProcesses x y = 1 :=
        jsCompare_pinned_right sortConfig pinnedProcesses x y hx' hypin
      rw [sortsLE, this] at hle
      norm_num at hle
    · refine List.pairwise_cons.mpr ⟨?_, ih hys⟩
      intro w hw
      rcases (List.mem_orderedInsert _).mp hw with hwx | hwys
      · subst hwx
        intro hxpin
        by_contra hy'
        have hy'' : pinnedProcesses.contains y.command = false :=
          Bool.eq_false_iff.mpr hy'
        have : jsCompare sortConfig pinnedProcesses w y = -1 :=
          jsCompare_pinned_left sortConfig pinnedProcesses w y hxpin hy''
        exact hle (by rw [sortsLE, this]; norm_num)
      · exact hy w hwys

/-- C2: in the output of `sortProcesses`, for every sort field and
direction, every record whose command is pinned precedes every record whose
command is not pinned — pin precedence is an absolute override of the field
comparison. -/
theorem sortProcesses_pinned_precede_unpinned (ps : List Process)
    (sortConfig : SortConfig) (pinnedProcesses : List String) :
    (sortProcesses ps sortConfig pinnedProcesses).Pairwise
      (pinnedFirst pinnedProcesses) := by
  unfold sortProcesses
  induction ps with
  | nil => simp
  | cons a l ih =>
    rw [List.insertionSort]
    exact orderedInsert_pinnedFirst sortConfig pinnedProcesses a _ ih

/-- Witness for C1 at a concrete pair of records with no pins. -/
theorem diskCompare_matches_spec_heuristic_witness :
    jsCompare ⟨SortField.disk_usage, SortDirection.asc⟩ [] diskProcA diskProcB =
      specDiskHeuristic 1 diskProcA diskProcB :=
  diskCompare_matches_spec_heuristic
    ⟨SortField.disk_usage, SortDirection.asc⟩ [] diskProcA diskProcB rfl rfl

/-- A term hits a record exactly when one of the four match rules applies:
lowercased-substring of name, of command, raw substring of the pid string,
or a successfully compiled regex matching the name (a failed compilation is
no-match). -/
theorem termHit_eq_four_rules (rx : RegexOracle) (p : Process)
    (term : String) :
    termHit rx p term =
      (jsIncludes (jsToLower p.name) (jsToLower term) ||
        jsIncludes (jsToLower p.command) (jsToLower term) ||
        jsIncludes (toString p.pid) term ||
        (match rx term with | some f => f p.name | none => false)) := by
  simp only [termHit]
  cases hA : jsIncludes (jsToLower p.name) (jsToLower term) <;>
    cases hB : jsIncludes (jsToLower p.command) (jsToLower term) <;>
      cases hC : jsIncludes (toString p.pid) term <;>
        simp [hA, hB, hC]

/-- C3: once a record has passed every enabled status/numeric clause and the
query yields at least one term, the record is kept iff at least one term
matches it by one of the four rules; regex compilation failure (`rx` giving
`none`) only silences that term's regex rule, and the total model never
raises. -/
theorem filterProcesses_search_or_across_terms (rx : RegexOracle)
    (ps : List Process) (searchTerm : String) (filters : Filters)
    (p : Process) (hterms : parseTerms searchTerm ≠ [])
    (hcl : ClausesPass filters p) :
    p ∈ filterProcesses rx ps searchTerm filters ↔
      p ∈ ps ∧
        (parseTerms searchTerm).any (fun term =>
          jsIncludes (jsToLower p.name) (jsToLower term) ||
          jsIncludes (jsToLower p.command) (jsToLower term) ||
          jsIncludes (toString p.pid) term ||
          (match rx term with | some f => f p.name | none => false)) =
          true := by
  have hq : ¬ searchTerm.length = 0 := by
    intro h0
    exact hterms (by simp [parseTerms, h0])
  unfold filterProcesses
  rw [if_neg (by simp [hq])]
  rw [List.mem_filter, passesRecord_iff]
  have hlen : ¬ (parseTerms searchTerm).length = 0 := by
    simpa [List.length_eq_zero] using hterms
  simp only [← termHit_eq_four_rules]
  constructor
  · rintro ⟨hin, -, hor⟩
    exact ⟨hin, hor.resolve_left hlen⟩
  · rintro ⟨hin, hany⟩
    exact ⟨hin, hcl, Or.inr hany⟩

/-- Witness for C3: the term "chro" (with every regex compilation failing)
keeps the record named "chrome" under an all-disabled clause configuration. -/
theorem filterProcesses_search_witness :
    procChrome ∈ filterProcesses rxFail [procChrome] "chro" filtersAllOff ↔
      procChrome ∈ [procChrome] ∧
        (parseTerms "chro").any (fun term =>
          jsIncludes (jsToLower procChrome.name) (jsToLower term) ||
          jsIncludes (jsToLower procChrome.command) (jsToLower term) ||
          jsIncludes (toString procChrome.pid) term ||
          (match rxFail term with
            | some f => f procChrome.name
            | none => false)) = true :=
  filterProcesses_search_or_across_terms rxFail [procChrome] "chro"
    filtersAllOff procChrome (by decide) (by decide)

/-- C4: every record in the output of `filterProcesses` satisfies each
enabled numeric clause under the stated unit conversions — cpu on
`cpu_usage` directly, ram on `memory_usage / (1024*1024)` (bytes → MiB),
runtime on `run_time / 60` (seconds → minutes); contrapositively, a record
failing an enabled clause's comparison is excluded. -/
theorem filterProcesses_numeric_clauses_sound (rx : RegexOracle)
    (ps : List Process) (searchTerm : String) (filters : Filters)
    (p : Process) (hp : p ∈ filterProcesses rx ps searchTerm filters) :
    (filters.cpu.enabled = true →
      compareValue p.cpu_usage filters.cpu.operator filters.cpu.value =
        true) ∧
    (filters.ram.enabled = true →
      compareValue (p.memory_usage / (1024 * 1024)) filters.ram.operator
        filters.ram.value = true) ∧
    (filters.runtime.enabled = true →
      compareValue (p.run_time / 60) filters.runtime.operator
        filters.runtime.value = true) := by
  unfold filterProcesses at hp
  split at hp
  · next hcond =>
    have hoff : someEnabled filters = false := by
      rw [Bool.and_eq_true] at hcond
      simpa using hcond.2
    simp only [someEnabled, Bool.or_eq_false_iff] at hoff
    refine ⟨?_, ?_, ?_⟩ <;> intro hen <;> simp_all
  · have hpass := (List.mem_filter.mp hp).2
    rw [passesRecord_iff] at hpass
    exact ⟨hpass.1.2.1, hpass.1.2.2.1, hpass.1.2.2.2⟩

/-- Witness for C4: the record with cpu 70 passes the enabled clause
`cpu > 50`. -/
theorem filterProcesses_numeric_witness :
    compareValue procChrome.cpu_usage filtersCpuOn.cpu.operator
      filtersCpuOn.cpu.value = true :=
  (filterProcesses_numeric_clauses_sound rxFail [procChrome] "" filtersCpuOn
    procChrome (by decide)).1 rfl

/-- C10: a status clause that is enabled yet carries an empty values set
imposes no constraint: the output equals that of the identical
configuration with the status clause disabled. -/
theorem filterProcesses_status_enabled_empty_noop (rx : RegexOracle)
    (ps : List Process) (searchTerm : String) (filters : Filters)
    (hen : filters.status.enabled = true)
    (hval : filters.status.values = []) :
    filterProcesses rx ps searchTerm filters =
      filterProcesses rx ps searchTerm
        { filters with
            status := { values := filters.status.values, enabled := false } } := by
  have hpt : ∀ terms p, passesRecord rx filters terms p =
      passesRecord rx
        { filters with
            status := { values := filters.status.values, enabled := false } }
        terms p := by
    intro terms p
    unfold passesRecord
    simp [hval]
  unfold filterProcesses
  rw [if_neg (by simp [someEnabled, hen])]
  split
  · next hfast =>
    rw [Bool.and_eq_true] at hfast
    obtain ⟨hq, hrest⟩ := hfast
    have hq0 : searchTerm.length = 0 := by simpa using hq
    have hrest' :
        someEnabled
          { filters with
              status :=
                { values := filters.status.values, enabled := false } } =
          false := by simpa using hrest
    simp only [someEnabled, Bool.or_eq_false_iff] at hrest'
    have hterms : parseTerms searchTerm = [] := by simp [parseTerms, hq0]
    rw [hterms]
    refine List.filter_eq_self.mpr fun p _ => ?_
    unfold passesRecord
    simp [hval, hrest'.1.1.1, hrest'.1.1.2, hrest'.1.2]
  · exact List.filter_congr fun p _ => hpt _ p

/-- Witness for C10 at a concrete enabled-but-empty status clause. -/
theorem filterProcesses_status_ghost_witness :
    filterProcesses rxFail [procChrome] "" filtersStatusGhost =
      filterProcesses rxFail [procChrome] "" filtersAllOff :=
  filterProcesses_status_enabled_empty_noop rxFail [procChrome] ""
    filtersStatusGhost rfl rfl

end NeoHtop
